import Mathlib

/-!
Verification of the PeGaSus frontend data engines against their specification.

The development shallowly embeds the client-side table engine
(`frontend/src/components/table/DataTable.tsx`, the `processedData` memo and
the state handlers), the record-detail projector
(`frontend/src/components/modal/RecordDetailModal.tsx`), and the bar-chart
label formatter (`HorizontalBarChart.tsx`).

JavaScript values that can appear in an `ApiRow` field are embedded as the
`Value` inductive; a row is an association list in object-insertion order.
JavaScript numbers are embedded as `Int` (all numeric field values and counts
handled by these components are integers).  Host string primitives
(`trim`, `toLowerCase`, `includes`, relational `<` on strings, `ToNumber`)
are embedded as executable character-list functions.
-/

namespace PeGaSus

/-! ## JavaScript string primitives (character-list embeddings) -/

/-- Embedding of `String.prototype.toLowerCase` (ASCII range, which covers the
field values this frontend handles). -/
def toLowerStr (s : String) : String := ⟨s.data.map Char.toLower⟩

/-- Embedding of `String.prototype.trim`: strip leading and trailing
whitespace. -/
def trimStr (s : String) : String :=
  ⟨(((s.data.dropWhile Char.isWhitespace).reverse.dropWhile Char.isWhitespace).reverse)⟩

/-- `startsWithL needle hay`: does `hay` start with `needle`? -/
def startsWithL : List Char → List Char → Bool
  | [], _ => true
  | _ :: _, [] => false
  | a :: as, b :: bs => a = b && startsWithL as bs

/-- `containsL hay needle`: substring occurrence test on character lists. -/
def containsL : List Char → List Char → Bool
  | hay, needle =>
    match hay with
    | [] => needle.isEmpty
    | _ :: rest => startsWithL needle hay || containsL rest needle

/-- Embedding of `String.prototype.includes`. -/
def strIncludes (hay needle : String) : Bool := containsL hay.data needle.data

/-! ## The data model: JavaScript field values and rows -/

/-- A JavaScript value stored in an `ApiRow` field.  `vNull` covers both
`null` and `undefined` (an absent field).  `vObj` is any non-primitive value;
it carries its `String(value)` form and its `JSON.stringify(value)` form,
which are the only two observations the embedded code makes of such values. -/
inductive Value where
  | vNull
  | vStr (s : String)
  | vNum (n : Int)
  | vBool (b : Bool)
  | vObj (str json : String)
deriving DecidableEq

/-- An `ApiRow`: field names to values, in object-insertion order. -/
abbrev Row := List (String × Value)

/-- `row[key]` — `vNull` when the field is absent (JS `undefined`). -/
def rowGet (row : Row) (k : String) : Value :=
  ((row.find? (fun kv => kv.1 == k)).map (fun kv => kv.2)).getD Value.vNull

/-- `typeof value` is `"string" | "number" | "boolean"`. -/
def isPrimitive : Value → Bool
  | .vStr _ => true
  | .vNum _ => true
  | .vBool _ => true
  | _ => false

/-- Embedding of `String(value)`. -/
def jsStringOf : Value → String
  | .vNull => "null"
  | .vStr s => s
  | .vNum n => toString n
  | .vBool b => if b then "true" else "false"
  | .vObj str _ => str

/-! ## TableEngine: global full-text filter (DataTable.tsx lines 130-146) -/

/-- One value's test inside the filter callback: `value == null` never
matches, a primitive matches when `String(value).toLowerCase()` contains the
needle, any other value never matches. -/
def valueMatches (needle : String) (v : Value) : Bool :=
  match v with
  | .vNull => false
  | .vStr _ | .vNum _ | .vBool _ => strIncludes (toLowerStr (jsStringOf v)) needle
  | .vObj _ _ => false

/-- `Object.values(row).some(...)` from the filter callback. -/
def rowMatches (needle : String) (row : Row) : Bool :=
  row.any (fun kv => valueMatches needle kv.2)

/-- The global filter step: `needle = search.trim().toLowerCase()`; filter
only when the needle is nonempty. -/
def filterRows (search : String) (rows : List Row) : List Row :=
  let needle := toLowerStr (trimStr search)
  if 0 < needle.data.length then rows.filter (rowMatches needle) else rows

/-! ## TableEngine: sort normalization and comparison (lines 148-167) -/

/-- The codomain of `normalize`: `string | number`. -/
inductive Norm where
  | nstr (s : String)
  | nnum (n : Int)
deriving DecidableEq

/-- Embedding of `normalize` from `processedData`. -/
def normalize : Value → Norm
  | .vNull => .nstr ""
  | .vNum n => .nnum n
  | .vBool b => .nnum (if b then 1 else 0)
  | .vStr s => .nstr (toLowerStr s)
  | .vObj str _ => .nstr str

/-- Strict lexicographic order on lists of naturals (used to embed the host
relational comparison of strings by code unit). -/
def lexLtN : List Nat → List Nat → Bool
  | [], [] => false
  | [], _ :: _ => true
  | _ :: _, [] => false
  | a :: as, b :: bs => if a = b then lexLtN as bs else decide (a < b)

/-- The code points of a string. -/
def charCodes (s : String) : List Nat := s.data.map Char.toNat

/-- Embedding of JS `a < b` on two strings: lexicographic by code unit. -/
def strLtJs (a b : String) : Bool := lexLtN (charCodes a) (charCodes b)

/-- Integer value of a digit string. -/
def digitsVal (ds : List Char) : Int :=
  ds.foldl (fun acc c => acc * 10 + ((c.toNat : Int) - 48)) 0

/-- Embedding of the fragment of JS `ToNumber` on strings reachable here
(`normalize` only produces lowercased field strings): blank strings convert
to `0`, optionally signed decimal-integer strings to their value, anything
else to NaN (`none`). -/
def toNumber (s : String) : Option Int :=
  let t := (trimStr s).data
  if t.isEmpty then some 0
  else
    let p : Int × List Char :=
      match t with
      | c :: rest => if c = '-' then (-1, rest) else if c = '+' then (1, rest) else (1, t)
      | [] => (1, t)
    if p.2 ≠ [] ∧ p.2.all Char.isDigit then some (p.1 * digitsVal p.2) else none

/-- Embedding of `av === bv` on `string | number`: mixed types are never
strictly equal. -/
def normEq : Norm → Norm → Bool
  | .nstr a, .nstr b => a == b
  | .nnum a, .nnum b => a == b
  | _, _ => false

/-- Embedding of `av < bv` on `string | number`: numbers compare numerically,
strings lexicographically, and a mixed comparison converts the string with
`ToNumber` (false when that yields NaN). -/
def normLt : Norm → Norm → Bool
  | .nnum a, .nnum b => decide (a < b)
  | .nstr a, .nstr b => strLtJs a b
  | .nstr a, .nnum b =>
    match toNumber a with
    | some x => decide (x < b)
    | none => false
  | .nnum a, .nstr b =>
    match toNumber b with
    | some x => decide (a < x)
    | none => false

/-- Sort direction. -/
inductive Direction where
  | asc
  | desc
deriving DecidableEq

/-- The comparator passed to `working.sort` (lines 159-166): `0` on strict
equality of the normalized values, else `-1`/`1` by `<`, sign-reversed for
descending. -/
def rowCmp (sortKey : String) (dir : Direction) (a b : Row) : Int :=
  let av := normalize (rowGet a sortKey)
  let bv := normalize (rowGet b sortKey)
  if normEq av bv then 0
  else
    let res : Int := if normLt av bv then -1 else 1
    match dir with
    | .asc => res
    | .desc => -res

/-- Non-strict form of the comparator: `a` may be placed before `b`. -/
def rowLe (sortKey : String) (dir : Direction) (a b : Row) : Bool :=
  decide (rowCmp sortKey dir a b ≤ 0)

/-! ## A stable sort

`Array.prototype.sort` is stable (ES2019); we embed it as a stable insertion
sort: an element is placed before the first already-sorted element it is
`le`-below-or-tied-with, so ties keep their original relative order. -/

/-- Stable insertion of `a` into a sorted list. -/
def insertLe {α : Type} (le : α → α → Bool) (a : α) : List α → List α
  | [] => [a]
  | b :: l => if le a b then a :: b :: l else b :: insertLe le a l

/-- Stable insertion sort. -/
def isortLe {α : Type} (le : α → α → Bool) : List α → List α
  | [] => []
  | a :: l => insertLe le a (isortLe le l)

/-- `working.sort((a, b) => ...)` with the row comparator. -/
def sortRows (sortKey : String) (dir : Direction) (rows : List Row) : List Row :=
  isortLe (rowLe sortKey dir) rows

/-! ## TableEngine: the full view computation (`processedData`, lines 118-181)

The spec names this operation `computeView`.  `pageSizeState` is a positive
number in every reachable state (it starts from the `pageSize` prop and is
only replaced by a truthy numeric select value); the `Nat`-division ceiling
formula below agrees with `Math.ceil(totalFiltered / pageSizeState)` for
every positive page size. -/

/-- The derived view: `{pageItems, totalFiltered, totalPages}`. -/
structure ViewResult where
  pageItems : List Row
  totalFiltered : Nat
  totalPages : Nat
deriving DecidableEq

/-- Embedding of the `processedData` memo.  `data` is `none` for a
null/undefined `data` prop; `!hasData` (null or empty) short-circuits to the
empty single-page result. -/
def computeView (data : Option (List Row)) (search : String) (sortKey : Option String)
    (sortDirection : Direction) (currentPage : Int) (pageSizeState : Nat) : ViewResult :=
  match data with
  | none => { pageItems := [], totalFiltered := 0, totalPages := 1 }
  | some rows =>
    if rows.length = 0 then { pageItems := [], totalFiltered := 0, totalPages := 1 }
    else
      let working := filterRows search rows
      let working :=
        match sortKey with
        | some k => sortRows k sortDirection working
        | none => working
      let totalFiltered := working.length
      let totalPages := max 1 ((totalFiltered + pageSizeState - 1) / pageSizeState)
      let safePage : Int := min (max 1 currentPage) (totalPages : Int)
      let start := (safePage - 1).toNat * pageSizeState
      { pageItems := (working.drop start).take pageSizeState,
        totalFiltered := totalFiltered,
        totalPages := totalPages }

/-- The filtered-and-sorted working list (`working` after lines 130-167), as
a named function for stating properties of `computeView`. -/
def viewRows (rows : List Row) (search : String) (sortKey : Option String)
    (dir : Direction) : List Row :=
  match sortKey with
  | some k => sortRows k dir (filterRows search rows)
  | none => filterRows search rows

/-! ## The DataTable component state machine (lines 78-198) -/

/-- The component-local React state of `DataTable`, together with the `data`
prop it currently renders. -/
structure TableState where
  data : Option (List Row)
  sortKey : Option String
  sortDirection : Direction
  currentPage : Int
  pageSizeState : Nat
  search : String
deriving DecidableEq

/-- `hasData = Array.isArray(data) && data.length > 0`. -/
def TableState.hasData (s : TableState) : Bool :=
  match s.data with
  | some rows => decide (0 < rows.length)
  | none => false

/-- The view the component derives from its current state. -/
def viewOf (s : TableState) : ViewResult :=
  computeView s.data s.search s.sortKey s.sortDirection s.currentPage s.pageSizeState

/-- The events that can change the component's state: a sort-header click
(`handleSort`), a search keystroke (the search input `onChange`), page
navigation (`goToPage`), a page-size selection (`handlePageSizeChange`, where
value `0` stands for a falsy `Number(value)`), and the parent replacing the
`data` prop. -/
inductive Step where
  | sortClick (key : String)
  | searchInput (text : String)
  | pageNav (page : Int)
  | pageSizeSelect (value : Nat)
  | newData (d : Option (List Row))

/-- One transition of the component state machine, embedding the handlers of
`DataTable.tsx`. -/
def step (s : TableState) : Step → TableState
  | .sortClick key =>
    let s1 := { s with currentPage := 1 }
    if s1.sortKey = some key then
      { s1 with sortDirection := match s1.sortDirection with | .asc => .desc | .desc => .asc }
    else
      { s1 with sortKey := some key, sortDirection := Direction.asc }
  | .searchInput t => { s with search := t, currentPage := 1 }
  | .pageNav p =>
    if s.hasData then { s with currentPage := min (max 1 p) ((viewOf s).totalPages : Int) }
    else s
  | .pageSizeSelect v =>
    let newSize := if v = 0 then s.pageSizeState else v
    if newSize = s.pageSizeState then s
    else { s with pageSizeState := newSize, currentPage := 1 }
  | .newData d => { s with data := d }

/-- The state at first render: page 1, no sort, empty search. -/
def initState (pageSize : Nat) (d : Option (List Row)) : TableState :=
  { data := d, sortKey := none, sortDirection := Direction.asc,
    currentPage := 1, pageSizeState := pageSize, search := "" }

/-! ## Heap-level run of `processedData` (for the no-mutation property)

JavaScript arrays are references into a heap.  `processedData` copies the
input (`let working = [...originalRows]`, line 128), `filter` allocates a new
array, and `.sort` mutates in place the array it is called on (the copy).
The heap model makes those aliasing facts explicit so that preservation of
the caller's array is a statement, not a convention. -/

/-- A heap of arrays of rows; a reference is an index. -/
structure Heap where
  arrays : List (List Row)
deriving DecidableEq

/-- Dereference (out-of-range reads give the empty array). -/
def Heap.get (h : Heap) (r : Nat) : List Row := h.arrays.getD r []

/-- The reference a fresh allocation in `h` will receive. -/
def Heap.allocRef (h : Heap) : Nat := h.arrays.length

/-- Allocate a new array holding `v`. -/
def Heap.allocHeap (h : Heap) (v : List Row) : Heap := { arrays := h.arrays ++ [v] }

/-- In-place update of the array at `r`. -/
def Heap.write (h : Heap) (r : Nat) (v : List Row) : Heap := { arrays := h.arrays.set r v }

/-- `processedData` run against the heap: the caller's rows live at
`dataRef`; the result is the final heap and the computed view. -/
def processedDataHeap (h : Heap) (dataRef : Nat) (search : String) (sortKey : Option String)
    (dir : Direction) (currentPage : Int) (pageSizeState : Nat) : Heap × ViewResult :=
  let rows := h.get dataRef
  if rows.length = 0 then (h, { pageItems := [], totalFiltered := 0, totalPages := 1 })
  else
    let w1 := h.allocRef
    let h1 := h.allocHeap (h.get dataRef)
    let needle := toLowerStr (trimStr search)
    let w2 := if 0 < needle.data.length then h1.allocRef else w1
    let h2 :=
      if 0 < needle.data.length then h1.allocHeap ((h1.get w1).filter (rowMatches needle))
      else h1
    let h3 :=
      match sortKey with
      | some k => h2.write w2 (isortLe (rowLe k dir) (h2.get w2))
      | none => h2
    let working := h3.get w2
    let totalFiltered := working.length
    let totalPages := max 1 ((totalFiltered + pageSizeState - 1) / pageSizeState)
    let safePage : Int := min (max 1 currentPage) (totalPages : Int)
    let start := (safePage - 1).toNat * pageSizeState
    (h3, { pageItems := (working.drop start).take pageSizeState,
           totalFiltered := totalFiltered,
           totalPages := totalPages })

/-! ## DetailProjector: field ordering (RecordDetailModal.tsx lines 102-117) -/

/-- A table column as the modal sees it. -/
structure DataTableColumn where
  key : String
  label : String
deriving DecidableEq

/-- `Object.keys(row)`, in insertion order. -/
def rowKeys (row : Row) : List String := row.map (fun kv => kv.1)

/-- `safeColumns.map(c => c.key).filter(key => rowKeys.includes(key))`. -/
def primaryKeys (columns : List DataTableColumn) (row : Row) : List String :=
  (columns.map (fun c => c.key)).filter (fun k => (rowKeys row).contains k)

/-- Flush a pending digit run into the collation key. -/
def flushTok : Option Nat → List Nat
  | none => []
  | some v => [1, v]

/-- Collation-key contribution of one non-digit character: punctuation before
digits before letters, letters case-insensitively (base sensitivity). -/
def charTok (c : Char) : List Nat := [if c.isAlpha then 2 else 0, (Char.toLower c).toNat]

/-- Tokenizer for the collation key: maximal digit runs become numeric
tokens, other characters become folded character tokens. -/
def localeKeyAux : Option Nat → List Char → List Nat
  | pending, [] => flushTok pending
  | pending, c :: rest =>
    if c.isDigit then localeKeyAux (some ((pending.getD 0) * 10 + (c.toNat - 48))) rest
    else flushTok pending ++ charTok c ++ localeKeyAux none rest

/-- Embedding of the collation key realized by
`a.localeCompare(b, "fr", { numeric: true, sensitivity: "base" })` on the
ASCII field keys this frontend uses: digit runs compare numerically, other
characters case-insensitively, punctuation before digits before letters.
The comparator is the lexicographic order on these keys. -/
def localeKey (s : String) : List Nat := localeKeyAux none s.data

/-- `a.localeCompare(b, ...) <= 0` under the embedded collation. -/
def localeLe (a b : String) : Bool := lexLtN (localeKey a) (localeKey b) || localeKey a == localeKey b

/-- `rowKeys.filter(key => !primaryKeys.includes(key)).sort(localeCompare…)`. -/
def remainingKeys (columns : List DataTableColumn) (row : Row) : List String :=
  isortLe localeLe ((rowKeys row).filter (fun k => !((primaryKeys columns row).contains k)))

/-! ## DetailProjector: value formatting (RecordDetailModal.tsx lines 60-80) -/

/-- Matches the 7-character spreadsheet line-break marker `_x000D_`
(case-insensitive on its letters) at the head of the list. -/
def isMarker7 : List Char → Bool
  | a :: x :: b :: c :: d :: e :: f :: _ =>
    decide (a = '_' ∧ (x = 'x' ∨ x = 'X') ∧ b = '0' ∧ c = '0' ∧ d = '0' ∧
      (e = 'd' ∨ e = 'D') ∧ f = '_')
  | _ => false

/-- `replace(/_x000D_/gi, "\n")` as a left-to-right scan; the fuel argument
(instantiated with the list length) keeps the recursion structural. -/
def replXF : Nat → List Char → List Char
  | _, [] => []
  | 0, l => l
  | fuel + 1, c :: rest =>
    if isMarker7 (c :: rest) then '\n' :: replXF fuel (rest.drop 6)
    else c :: replXF fuel rest

/-- `replace(/_x000D_/gi, "\n")`. -/
def replX (l : List Char) : List Char := replXF l.length l

/-- `replace(/\r\n/g, "\n")`. -/
def replCRLF : List Char → List Char
  | [] => []
  | [c] => [c]
  | c :: d :: rest =>
    if c = '\r' ∧ d = '\n' then '\n' :: replCRLF rest
    else c :: replCRLF (d :: rest)

/-- `replace(/\r/g, "\n")`. -/
def replCR (l : List Char) : List Char := l.map (fun c => if c = '\r' then '\n' else c)

/-- The three chained replacements of `formatValue`. -/
def normalizeNewlines (s : String) : String := ⟨replCR (replCRLF (replX s.data))⟩

/-- Does the string contain the spreadsheet marker anywhere? -/
def hasMarker : List Char → Bool
  | [] => false
  | c :: rest => isMarker7 (c :: rest) || hasMarker rest

/-- What `formatValue` renders: a plain string, or a string inside the
multi-line `span`. -/
inductive Formatted where
  | plain (s : String)
  | multiline (s : String)
deriving DecidableEq

/-- Embedding of `formatValue` from `RecordDetailModal.tsx`: null/empty to
the em-dash, strings through newline normalization (multi-line when a newline
remains), numbers to `String(n)`, booleans to `Oui`/`Non`, other values to
their `JSON.stringify` form. -/
def formatValue : Value → Formatted
  | .vNull => .plain "—"
  | .vStr s =>
    if s = "" then .plain "—"
    else
      let normalized := normalizeNewlines s
      if normalized.data.contains '\n' then .multiline normalized else .plain normalized
  | .vNum n => .plain (toString n)
  | .vBool b => .plain (if b then "Oui" else "Non")
  | .vObj _ json => .plain json

/-! ## Bar-chart label formatter (HorizontalBarChart.tsx lines 204-219) -/

/-- `x.toFixed(1)` for the exact rational `num / den` (`den > 0`): the sign
is taken off, the magnitude is rounded to the nearest tenth with ties
rounded up, and one decimal digit is printed. -/
def toFixed1 (num den : Int) : String :=
  let sign := if num < 0 then "-" else ""
  let a := num.natAbs
  let dn := den.natAbs
  let n := (20 * a + dn) / (2 * dn)
  sign ++ toString (n / 10) ++ "." ++ toString (n % 10)

/-- Embedding of `labelFormatter`: `value ?? 0` is the bar value; a missing,
or non-positive total yields just the value, otherwise the value with the
percentage of the total to one decimal place.  (`Int` totals are always
finite, so the `Number.isFinite(total)` guard is vacuous here.) -/
def labelFormatter (value : Option Int) (total : Option Int) : String :=
  let v : Int := value.getD 0
  match total with
  | none => toString v
  | some t =>
    if t ≤ 0 then toString v
    else toString v ++ " • " ++ toFixed1 (v * 100) t ++ "%"

/-! ## Concrete sample data used by the witnesses and counterexamples -/

/-- The spec's search example row `{name: "North Site"}`. -/
def northRow : Row := [("name", Value.vStr "North Site")]

/-- Three distinguishable one-field rows. -/
def rows3 : List Row :=
  [[("name", Value.vStr "a")], [("name", Value.vStr "b")], [("name", Value.vStr "c")]]

/-- The spec's stability example rows `{k:1,tag:"a"}` and `{k:1,tag:"b"}`. -/
def tieRowA : Row := [("k", Value.vNum 1), ("tag", Value.vStr "a")]

/-- Second stability example row. -/
def tieRowB : Row := [("k", Value.vNum 1), ("tag", Value.vStr "b")]

/-! ## Lemmas about the stable insertion sort -/

theorem length_insertLe {α : Type} (le : α → α → Bool) (a : α) (l : List α) :
    (insertLe le a l).length = l.length + 1 := by
  induction l with
  | nil => rfl
  | cons b bs ih =>
    rw [insertLe]
    split
    · simp
    · simp [ih]

theorem length_isortLe {α : Type} (le : α → α → Bool) (l : List α) :
    (isortLe le l).length = l.length := by
  induction l with
  | nil => rfl
  | cons a bs ih => rw [isortLe, length_insertLe, ih, List.length_cons]

theorem perm_insertLe {α : Type} (le : α → α → Bool) (a : α) (l : List α) :
    (insertLe le a l).Perm (a :: l) := by
  induction l with
  | nil => exact List.Perm.refl _
  | cons b bs ih =>
    rw [insertLe]
    split
    · exact List.Perm.refl _
    · exact ((ih.cons b).trans (List.Perm.swap a b bs))

theorem perm_isortLe {α : Type} (le : α → α → Bool) (l : List α) :
    (isortLe le l).Perm l := by
  induction l with
  | nil => exact List.Perm.refl _
  | cons a bs ih => exact (perm_insertLe le a (isortLe le bs)).trans (ih.cons a)

theorem mem_insertLe {α : Type} (le : α → α → Bool) (a x : α) (l : List α) :
    x ∈ insertLe le a l ↔ x = a ∨ x ∈ l := by
  rw [(perm_insertLe le a l).mem_iff, List.mem_cons]

theorem mem_isortLe {α : Type} (le : α → α → Bool) (x : α) (l : List α) :
    x ∈ isortLe le l ↔ x ∈ l :=
  (perm_isortLe le l).mem_iff

theorem filter_insertLe_pos {α : Type} (le : α → α → Bool) (p : α → Bool) (a : α) (l : List α)
    (hpa : p a = true) (hstop : ∀ b, p b = true → le a b = true) :
    (insertLe le a l).filter p = a :: l.filter p := by
  induction l with
  | nil => simp [insertLe, hpa]
  | cons b bs ih =>
    rw [insertLe]
    split
    · simp [List.filter_cons, hpa]
    · rename_i hab
      have hpb : p b = false := by
        cases hb : p b with
        | false => rfl
        | true => exact absurd (hstop b hb) (by simpa using hab)
      simp [List.filter_cons, hpb, ih]

theorem filter_insertLe_neg {α : Type} (le : α → α → Bool) (p : α → Bool) (a : α) (l : List α)
    (hpa : p a = false) :
    (insertLe le a l).filter p = l.filter p := by
  induction l with
  | nil => simp [insertLe, hpa]
  | cons b bs ih =>
    rw [insertLe]
    split
    · simp [List.filter_cons, hpa]
    · simp [List.filter_cons, ih]

theorem filter_isortLe {α : Type} (le : α → α → Bool) (p : α → Bool) (l : List α)
    (hcl : ∀ a b, p a = true → p b = true → le a b = true) :
    (isortLe le l).filter p = l.filter p := by
  induction l with
  | nil => rfl
  | cons a bs ih =>
    rw [isortLe]
    cases hpa : p a with
    | true =>
      rw [filter_insertLe_pos le p a _ hpa (fun b hb => hcl a b hpa hb), ih]
      simp [List.filter_cons, hpa]
    | false =>
      rw [filter_insertLe_neg le p a _ hpa, ih]
      simp [List.filter_cons, hpa]

theorem pairwise_insertLe {α : Type} (le : α → α → Bool) (M : α → Prop) (a : α) (l : List α)
    (ha : M a) (hl : ∀ x ∈ l, M x)
    (htot : ∀ x y, M x → M y → le x y = true ∨ le y x = true)
    (htr : ∀ x y z, M x → M y → M z → le x y = true → le y z = true → le x z = true)
    (hp : l.Pairwise (fun x y => le x y = true)) :
    (insertLe le a l).Pairwise (fun x y => le x y = true) := by
  induction l with
  | nil => simp [insertLe]
  | cons b bs ih =>
    rw [List.pairwise_cons] at hp
    obtain ⟨hb, hbs⟩ := hp
    have hMb : M b := hl b (List.mem_cons_self b bs)
    have hMbs : ∀ x ∈ bs, M x := fun x hx => hl x (List.mem_cons_of_mem b hx)
    rw [insertLe]
    split
    · rename_i hab
      rw [List.pairwise_cons]
      refine ⟨?_, List.pairwise_cons.mpr ⟨hb, hbs⟩⟩
      intro x hx
      rcases List.mem_cons.mp hx with hx | hx
      · exact hx ▸ hab
      · exact htr a b x ha hMb (hMbs x hx) hab (hb x hx)
    · rename_i hab
      have hba : le b a = true := by
        rcases htot a b ha hMb with h | h
        · exact absurd h (by simpa using hab)
        · exact h
      rw [List.pairwise_cons]
      refine ⟨?_, ih hMbs hbs⟩
      intro x hx
      rcases (mem_insertLe le a x bs).mp hx with hx | hx
      · exact hx ▸ hba
      · exact hb x hx

theorem pairwise_isortLe {α : Type} (le : α → α → Bool) (M : α → Prop) (l : List α)
    (hl : ∀ x ∈ l, M x)
    (htot : ∀ x y, M x → M y → le x y = true ∨ le y x = true)
    (htr : ∀ x y z, M x → M y → M z → le x y = true → le y z = true → le x z = true) :
    (isortLe le l).Pairwise (fun x y => le x y = true) := by
  induction l with
  | nil => simp [isortLe]
  | cons a bs ih =>
    rw [isortLe]
    have hMbs : ∀ x ∈ bs, M x := fun x hx => hl x (List.mem_cons_of_mem a hx)
    exact pairwise_insertLe le M a (isortLe le bs) (hl a (List.mem_cons_self a bs))
      (fun x hx => hMbs x ((mem_isortLe le x bs).mp hx)) htot htr (ih hMbs)

/-! ## Lemmas about the lexicographic order on code lists -/

theorem lexLtN_connex : ∀ x y : List Nat, lexLtN x y = true ∨ lexLtN y x = true ∨ x = y := by
  intro x
  induction x with
  | nil =>
    intro y
    cases y with
    | nil => exact Or.inr (Or.inr rfl)
    | cons b bs => exact Or.inl rfl
  | cons a as ih =>
    intro y
    cases y with
    | nil => exact Or.inr (Or.inl rfl)
    | cons b bs =>
      by_cases hab : a = b
      · subst hab
        rcases ih bs with h | h | h
        · exact Or.inl (by simp [lexLtN, h])
        · exact Or.inr (Or.inl (by simp [lexLtN, h]))
        · exact Or.inr (Or.inr (by rw [h]))
      · rcases Nat.lt_or_ge a b with h | h
        · exact Or.inl (by simp [lexLtN, hab, h])
        · have hba : b < a := lt_of_le_of_ne h (fun hc => hab hc.symm)
          exact Or.inr (Or.inl (by simp [lexLtN, Ne.symm hab, hba]))

theorem lexLtN_trans : ∀ x y z : List Nat,
    lexLtN x y = true → lexLtN y z = true → lexLtN x z = true := by
  intro x
  induction x with
  | nil =>
    intro y z hxy hyz
    cases y with
    | nil => exact hyz
    | cons b bs =>
      cases z with
      | nil => simp [lexLtN] at hyz
      | cons c cs => rfl
  | cons a as ih =>
    intro y z hxy hyz
    cases y with
    | nil => simp [lexLtN] at hxy
    | cons b bs =>
      cases z with
      | nil => simp [lexLtN] at hyz
      | cons c cs =>
        rw [lexLtN] at hxy hyz ⊢
        by_cases hab : a = b
        · subst hab
          by_cases hbc : a = c
          · subst hbc
            simp only [if_pos rfl] at hxy hyz ⊢
            exact ih bs cs hxy hyz
          · simp only [if_pos rfl] at hxy
            simpa [hbc] using hyz
        · by_cases hbc : b = c
          · subst hbc
            simpa [hab] using hxy
          · simp only [if_neg hab] at hxy
            simp only [if_neg hbc] at hyz
            have h1 : a < b := by simpa using hxy
            have h2 : b < c := by simpa using hyz
            have hac : a ≠ c := by omega
            simp [hac]
            omega

/-! ## Lemmas about the row comparator and the collation order -/

theorem normEq_iff (x y : Norm) : normEq x y = true ↔ x = y := by
  cases x <;> cases y <;> simp [normEq]

theorem rowLe_of_tie (k : String) (dir : Direction) (a b : Row)
    (h : normEq (normalize (rowGet a k)) (normalize (rowGet b k)) = true) :
    rowLe k dir a b = true := by
  simp only [rowLe, rowCmp, if_pos h]
  decide

theorem rowCmp_desc_eq_neg (k : String) (a b : Row) :
    rowCmp k Direction.desc a b = -(rowCmp k Direction.asc a b) := by
  rw [rowCmp, rowCmp]
  split
  · rfl
  · rfl

theorem localeLe_total (a b : String) : localeLe a b = true ∨ localeLe b a = true := by
  rcases lexLtN_connex (localeKey a) (localeKey b) with h | h | h
  · exact Or.inl (by simp [localeLe, h])
  · exact Or.inr (by simp [localeLe, h])
  · exact Or.inl (by simp [localeLe, h])

theorem localeLe_trans (a b c : String)
    (hab : localeLe a b = true) (hbc : localeLe b c = true) : localeLe a c = true := by
  simp only [localeLe, Bool.or_eq_true, beq_iff_eq] at hab hbc ⊢
  rcases hab with hab | hab <;> rcases hbc with hbc | hbc
  · exact Or.inl (lexLtN_trans _ _ _ hab hbc)
  · exact Or.inl (hbc ▸ hab)
  · exact Or.inl (hab ▸ hbc)
  · exact Or.inr (hab.trans hbc)

/-! ## Lemmas about the filter -/

theorem valueMatches_eq (needle : String) (v : Value) :
    valueMatches needle v =
      (isPrimitive v && strIncludes (toLowerStr (jsStringOf v)) needle) := by
  cases v <;> simp [valueMatches, isPrimitive]

theorem data_toLowerStr (s : String) : (toLowerStr s).data = s.data.map Char.toLower := rfl

theorem toLowerStr_empty_iff (s : String) : toLowerStr s = "" ↔ s = "" := by
  rw [String.ext_iff, String.ext_iff, data_toLowerStr]
  simp [String]

theorem filterRows_of_trim_empty (search : String) (h : trimStr search = "")
    (rows : List Row) : filterRows search rows = rows := by
  rw [filterRows]
  have : (toLowerStr (trimStr search)).data = [] := by
    rw [data_toLowerStr, h]
    rfl
  simp [this]

theorem filterRows_of_trim_ne (search : String) (h : trimStr search ≠ "")
    (rows : List Row) :
    filterRows search rows = rows.filter (rowMatches (toLowerStr (trimStr search))) := by
  rw [filterRows]
  have hd : (trimStr search).data ≠ [] := fun hc => h (String.ext hc)
  have hpos : 0 < (toLowerStr (trimStr search)).data.length := by
    rw [data_toLowerStr, List.length_map]
    cases hdt : (trimStr search).data with
    | nil => exact absurd hdt hd
    | cons c cs => simp
  rw [if_pos hpos]

/-! ## Characterization of `computeView` on a nonempty row collection -/

theorem computeView_some (rows : List Row) (hne : rows.length ≠ 0) (search : String)
    (sortKey : Option String) (dir : Direction) (currentPage : Int) (P : Nat) :
    computeView (some rows) search sortKey dir currentPage P =
      { pageItems :=
          (((viewRows rows search sortKey dir).drop
            (((min (max 1 currentPage)
                ((max 1 (((viewRows rows search sortKey dir).length + P - 1) / P) : Nat) : Int)) - 1).toNat
              * P)).take P),
        totalFiltered := (viewRows rows search sortKey dir).length,
        totalPages := max 1 (((viewRows rows search sortKey dir).length + P - 1) / P) } := by
  rw [computeView]
  simp only [if_neg hne]
  cases sortKey <;> rfl

/-! ## Pagination arithmetic -/

theorem viewRows_nil (search : String) (sortKey : Option String) (dir : Direction) :
    viewRows [] search sortKey dir = [] := by
  have hf : filterRows search [] = [] := by
    rw [filterRows]
    split <;> rfl
  cases sortKey <;> simp [viewRows, hf, sortRows, isortLe]

theorem length_viewRows_le (rows : List Row) (search : String) (sortKey : Option String)
    (dir : Direction) : (viewRows rows search sortKey dir).length ≤ rows.length := by
  have hf : (filterRows search rows).length ≤ rows.length := by
    rw [filterRows]
    split
    · exact List.length_filter_le _ _
    · exact le_refl _
  cases sortKey with
  | none => exact hf
  | some k => rw [viewRows, sortRows, length_isortLe]; exact hf

theorem sum_min_slices (P : Nat) (hP : 0 < P) :
    ∀ n : Nat, 0 < n →
      (Finset.range ((n + P - 1) / P)).sum (fun i => min P (n - i * P)) = n := by
  intro n
  induction n using Nat.strong_induction_on with
  | _ n ih =>
    intro hn
    by_cases hnP : n ≤ P
    · have hT : (n + P - 1) / P = 1 := by
        apply Nat.div_eq_of_lt_le
        · omega
        · omega
      rw [hT, Finset.sum_range_one]
      omega
    · have hsplit : n + P - 1 = ((n - P) + P - 1) + P := by omega
      have hT : (n + P - 1) / P = ((n - P) + P - 1) / P + 1 := by
        rw [hsplit, Nat.add_div_right _ hP]
      rw [hT, Finset.sum_range_succ']
      have harg : ∀ i : Nat, n - (i + 1) * P = (n - P) - i * P := by
        intro i
        rw [Nat.succ_mul]
        omega
      have hcong :
          (Finset.range (((n - P) + P - 1) / P)).sum (fun i => min P (n - (i + 1) * P)) =
            (Finset.range (((n - P) + P - 1) / P)).sum (fun i => min P ((n - P) - i * P)) := by
        apply Finset.sum_congr rfl
        intro i _
        rw [harg i]
      rw [hcong, ih (n - P) (by omega) (by omega)]
      omega

/-- C2 and C3 share this clamp computation: a valid zero-based page index `i`
clamps to the one-based page `i + 1`. -/
theorem clamp_of_lt (i T : Nat) (h : i < T) :
    ((min (max 1 ((i : Int) + 1)) ((T : Int))) - 1).toNat = i := by omega

/-- C2 -/
theorem C2_pagination_clamp_slice (rows : List Row) (search : String)
    (sortKey : Option String) (dir : Direction) (p : Int) (P : Nat) (hP : 0 < P) :
    (computeView (some rows) search sortKey dir p P).totalFiltered =
        (viewRows rows search sortKey dir).length ∧
    (computeView (some rows) search sortKey dir p P).totalPages =
        max 1 (((viewRows rows search sortKey dir).length + P - 1) / P) ∧
    1 ≤ min (max 1 p) ((computeView (some rows) search sortKey dir p P).totalPages : Int) ∧
    min (max 1 p) ((computeView (some rows) search sortKey dir p P).totalPages : Int) ≤
        ((computeView (some rows) search sortKey dir p P).totalPages : Int) ∧
    (computeView (some rows) search sortKey dir p P).pageItems =
        ((viewRows rows search sortKey dir).drop
          (((min (max 1 p) ((computeView (some rows) search sortKey dir p P).totalPages : Int))
              - 1).toNat * P)).take P ∧
    (computeView (some rows) search sortKey dir p P).pageItems.length ≤ P ∧
    computeView (some rows3) "" none Direction.asc 5 10 =
        computeView (some rows3) "" none Direction.asc 1 10 ∧
    (computeView (some rows3) "" none Direction.asc 5 10).totalPages = 1 := by
  by_cases hz : rows.length = 0
  · have hrows : rows = [] := List.length_eq_zero.mp hz
    subst hrows
    have hv : computeView (some []) search sortKey dir p P =
        { pageItems := [], totalFiltered := 0, totalPages := 1 } := rfl
    have hvr := viewRows_nil search sortKey dir
    rw [hv, hvr]
    dsimp only
    refine ⟨rfl, ?_, by omega, by omega, by simp, by simp, by decide, by decide⟩
    have hdiv : (P - 1) / P = 0 := Nat.div_eq_of_lt (by omega)
    simp [hdiv]
  · rw [computeView_some rows hz search sortKey dir p P]
    dsimp only
    set T := max 1 (((viewRows rows search sortKey dir).length + P - 1) / P) with hTdef
    have hT : 1 ≤ T := le_max_left _ _
    refine ⟨rfl, rfl, by omega, by omega, rfl, ?_, by decide, by decide⟩
    simp only [List.length_take]
    exact min_le_left _ _

/-- C2 witness -/
theorem C2_pagination_clamp_slice_witness :
    (computeView (some rows3) "" none Direction.asc 5 10).pageItems =
      ((viewRows rows3 "" none Direction.asc).drop
        (((min (max 1 (5 : Int))
            ((computeView (some rows3) "" none Direction.asc 5 10).totalPages : Int))
            - 1).toNat * 10)).take 10 :=
  (C2_pagination_clamp_slice rows3 "" none Direction.asc 5 10 (by decide)).2.2.2.2.1

/-- C3 -/
theorem C3_pages_partition_filtered (rows : List Row) (search : String)
    (sortKey : Option String) (dir : Direction) (P : Nat) (hP : 0 < P) :
    (Finset.range ((computeView (some rows) search sortKey dir 1 P).totalPages)).sum
        (fun i => (computeView (some rows) search sortKey dir ((i : Int) + 1) P).pageItems.length)
      = (computeView (some rows) search sortKey dir 1 P).totalFiltered ∧
    (computeView (some rows) search sortKey dir 1 P).totalFiltered ≤ rows.length := by
  by_cases hz : rows.length = 0
  · have hrows : rows = [] := List.length_eq_zero.mp hz
    subst hrows
    have hv : ∀ q : Int, computeView (some []) search sortKey dir q P =
        { pageItems := [], totalFiltered := 0, totalPages := 1 } := fun q => rfl
    simp [hv]
  · have hle := length_viewRows_le rows search sortKey dir
    simp only [computeView_some rows hz search sortKey dir]
    refine ⟨?_, hle⟩
    have hterm : ∀ i ∈ Finset.range
        (max 1 (((viewRows rows search sortKey dir).length + P - 1) / P)),
        (((viewRows rows search sortKey dir).drop
            (((min (max 1 ((i : Int) + 1))
                ((max 1 (((viewRows rows search sortKey dir).length + P - 1) / P) : Nat) : Int))
                - 1).toNat * P)).take P).length
          = min P ((viewRows rows search sortKey dir).length - i * P) := by
      intro i hi
      rw [Finset.mem_range] at hi
      rw [clamp_of_lt i _ hi, List.length_take, List.length_drop]
    rw [Finset.sum_congr rfl hterm]
    by_cases hn : (viewRows rows search sortKey dir).length = 0
    · rw [hn]
      have hT : max 1 ((0 + P - 1) / P) = 1 := by
        have : (0 + P - 1) / P = 0 := Nat.div_eq_of_lt (by omega)
        omega
      rw [hT, Finset.sum_range_one]
      omega
    · have h1 : 1 ≤ ((viewRows rows search sortKey dir).length + P - 1) / P := by
        rw [Nat.le_div_iff_mul_le hP]
        omega
      rw [max_eq_right h1]
      exact sum_min_slices P hP _ (by omega)

/-- C3 witness -/
theorem C3_pages_partition_filtered_witness :
    (Finset.range ((computeView (some rows3) "" none Direction.asc 1 2).totalPages)).sum
        (fun i => (computeView (some rows3) "" none Direction.asc ((i : Int) + 1) 2).pageItems.length)
      = (computeView (some rows3) "" none Direction.asc 1 2).totalFiltered :=
  (C3_pages_partition_filtered rows3 "" none Direction.asc 2 (by decide)).1

/-- C6: a null/undefined or empty row collection yields the empty,
single-page result for every search, sort, page, and page size. -/
theorem C6_empty_input (search : String) (sortKey : Option String) (dir : Direction)
    (p : Int) (P : Nat) :
    computeView none search sortKey dir p P =
        { pageItems := [], totalFiltered := 0, totalPages := 1 } ∧
    computeView (some []) search sortKey dir p P =
        { pageItems := [], totalFiltered := 0, totalPages := 1 } :=
  ⟨rfl, rfl⟩

/-! ## C1: page resets -/

/-- C1 counterexample: from the initial state with page size 1 and two rows,
navigating to page 2 and then replacing the `data` prop is a reachable trace
whose last step changes the underlying rows collection, yet the requested
page index afterwards is 2, not 1 — `DataTable` has no handler that resets
`currentPage` when `data` changes. -/
theorem C1_counterexample :
    (step (step (initState 1 (some [tieRowA, tieRowB])) (Step.pageNav 2))
        (Step.newData (some [tieRowA]))).data
      ≠ (step (initState 1 (some [tieRowA, tieRowB])) (Step.pageNav 2)).data ∧
    (step (step (initState 1 (some [tieRowA, tieRowB])) (Step.pageNav 2))
        (Step.newData (some [tieRowA]))).currentPage = 2 := by decide

/-- C1 (amended): in every state, a sort click or a search keystroke sets the
requested page index to 1, a page-size selection either sets it to 1 or
leaves the whole state unchanged, and replacing the rows collection leaves
the requested page index unchanged (it is only clamped when the view is
computed). -/
theorem C1_page_reset_on_search_and_sort :
    ∀ (s : TableState) (k t : String) (v : Nat) (d : Option (List Row)),
      (step s (Step.sortClick k)).currentPage = 1 ∧
      (step s (Step.searchInput t)).currentPage = 1 ∧
      ((step s (Step.pageSizeSelect v)).currentPage = 1 ∨ step s (Step.pageSizeSelect v) = s) ∧
      (step s (Step.newData d)).currentPage = s.currentPage := by
  intro s k t v d
  refine ⟨?_, rfl, ?_, rfl⟩
  · rw [step]
    dsimp only
    split <;> rfl
  · rw [step]
    split
    · simp
    · split
      · exact Or.inr rfl
      · exact Or.inl rfl

/-! ## C4: the global full-text filter -/

/-- C4: a row passes the filter iff the trimmed, lowercased search term is a
substring of the lowercased stringification of at least one primitive field
value (null and non-primitive values never match); an empty or all-whitespace
search keeps every row, and a nonempty one filters by exactly this predicate.
The example row `{name: "North Site"}` passes the searches `"north"` and
`"RTH SI"`. -/
theorem C4_filter_semantics (row : Row) (search : String) :
    (rowMatches (toLowerStr (trimStr search)) row = true ↔
      ∃ kv ∈ row, isPrimitive kv.2 = true ∧
        strIncludes (toLowerStr (jsStringOf kv.2)) (toLowerStr (trimStr search)) = true) ∧
    (trimStr search = "" → ∀ rows : List Row, filterRows search rows = rows) ∧
    (trimStr search ≠ "" → ∀ rows : List Row,
      filterRows search rows = rows.filter (rowMatches (toLowerStr (trimStr search)))) ∧
    filterRows "north" [northRow] = [northRow] ∧
    filterRows "RTH SI" [northRow] = [northRow] := by
  refine ⟨?_, fun h rows => filterRows_of_trim_empty search h rows,
    fun h rows => filterRows_of_trim_ne search h rows, by decide, by decide⟩
  rw [rowMatches, List.any_eq_true]
  constructor
  · rintro ⟨kv, hmem, hvm⟩
    rw [valueMatches_eq] at hvm
    rw [Bool.and_eq_true] at hvm
    exact ⟨kv, hmem, hvm.1, hvm.2⟩
  · rintro ⟨kv, hmem, hp, hs⟩
    refine ⟨kv, hmem, ?_⟩
    rw [valueMatches_eq, hp, hs]
    rfl

/-- C4 witness -/
theorem C4_filter_semantics_witness :
    filterRows "north" [northRow] =
      [northRow].filter (rowMatches (toLowerStr (trimStr "north"))) :=
  (C4_filter_semantics northRow "north").2.2.1 (by decide) [northRow]

/-! ## C5: sorting -/

/-- C5: sorting normalizes field values exactly as specified (null to the
empty string, numbers to themselves, booleans to 1/0, strings lowercased,
other values to their string form); the descending comparator is the sign
reversal of the ascending one; the sorted list is a permutation of the
input; rows whose normalized sort-field values are equal keep their original
relative order; on any collection over which the comparator is total and
transitive the output is sorted by it; and the spec's tie example keeps the
tag order `a`, `b`. -/
theorem C5_sort_semantics :
    (∀ (n : Int) (b : Bool) (s j1 j2 : String),
      normalize Value.vNull = Norm.nstr "" ∧
      normalize (Value.vNum n) = Norm.nnum n ∧
      normalize (Value.vBool b) = Norm.nnum (if b then 1 else 0) ∧
      normalize (Value.vStr s) = Norm.nstr (toLowerStr s) ∧
      normalize (Value.vObj j1 j2) = Norm.nstr j1) ∧
    (∀ (k : String) (a b : Row),
      rowCmp k Direction.desc a b = -(rowCmp k Direction.asc a b)) ∧
    (∀ (k : String) (dir : Direction) (l : List Row), (sortRows k dir l).Perm l) ∧
    (∀ (k : String) (dir : Direction) (l : List Row) (v : Norm),
      (sortRows k dir l).filter (fun r => normEq (normalize (rowGet r k)) v) =
        l.filter (fun r => normEq (normalize (rowGet r k)) v)) ∧
    (∀ (k : String) (dir : Direction) (l : List Row),
      (∀ a ∈ l, ∀ b ∈ l, rowLe k dir a b = true ∨ rowLe k dir b a = true) →
      (∀ a ∈ l, ∀ b ∈ l, ∀ c ∈ l,
        rowLe k dir a b = true → rowLe k dir b c = true → rowLe k dir a c = true) →
      (sortRows k dir l).Pairwise (fun a b => rowLe k dir a b = true)) ∧
    sortRows "k" Direction.asc [tieRowA, tieRowB] = [tieRowA, tieRowB] := by
  refine ⟨fun n b s j1 j2 => ⟨rfl, rfl, rfl, rfl, rfl⟩,
    fun k a b => rowCmp_desc_eq_neg k a b,
    fun k dir l => perm_isortLe _ l,
    ?_, ?_, by decide⟩
  · intro k dir l v
    apply filter_isortLe
    intro a b ha hb
    apply rowLe_of_tie
    rw [normEq_iff] at ha hb ⊢
    rw [ha, hb]
  · intro k dir l htot htr
    exact pairwise_isortLe (rowLe k dir) (fun x => x ∈ l) l (fun x hx => hx)
      (fun x y hx hy => htot x hx y hy)
      (fun x y z hx hy hz h1 h2 => htr x hx y hy z hz h1 h2)

/-- C5 witness -/
theorem C5_sort_semantics_witness :
    (sortRows "k" Direction.asc [tieRowA, tieRowB]).Pairwise
      (fun a b => rowLe "k" Direction.asc a b = true) :=
  C5_sort_semantics.2.2.2.2.1 "k" Direction.asc [tieRowA, tieRowB] (by decide) (by decide)

/-! ## C7: detail-modal field ordering -/

/-- C7: the primary section is exactly the ColumnSpec keys present on the
row, in ColumnSpec order (a sublist of the column keys), and the remaining
section is a permutation of the other row keys, sorted by the embedded
locale-aware numeric-aware comparison; the spec's example splits
`{a,b,c}` with columns `[b,a]` into primary `["b","a"]` and remaining
`["c"]`. -/
theorem C7_detail_field_ordering (columns : List DataTableColumn) (row : Row) :
    primaryKeys columns row =
        (columns.map (fun c => c.key)).filter (fun k => (rowKeys row).contains k) ∧
    (primaryKeys columns row).Sublist (columns.map (fun c => c.key)) ∧
    (∀ k : String, k ∈ primaryKeys columns row ↔
        (k ∈ columns.map (fun c => c.key) ∧ k ∈ rowKeys row)) ∧
    (remainingKeys columns row).Perm
        ((rowKeys row).filter (fun k => !((primaryKeys columns row).contains k))) ∧
    (remainingKeys columns row).Pairwise (fun a b => localeLe a b = true) ∧
    primaryKeys [⟨"b", "B"⟩, ⟨"a", "A"⟩]
        [("a", Value.vNum 1), ("b", Value.vNum 2), ("c", Value.vNum 3)] = ["b", "a"] ∧
    remainingKeys [⟨"b", "B"⟩, ⟨"a", "A"⟩]
        [("a", Value.vNum 1), ("b", Value.vNum 2), ("c", Value.vNum 3)] = ["c"] := by
  refine ⟨rfl, List.filter_sublist _, ?_, perm_isortLe _ _, ?_, by decide, by decide⟩
  · intro k
    rw [primaryKeys, List.mem_filter]
    simp
  · exact pairwise_isortLe localeLe (fun _ => True) _ (fun _ _ => trivial)
      (fun x y _ _ => localeLe_total x y)
      (fun x y z _ _ _ h1 h2 => localeLe_trans x y z h1 h2)

/-! ## C8: value formatting in the detail modal -/

theorem isMarker7_shape (l : List Char) (h : isMarker7 l = true) :
    ∃ (x e : Char) (rest : List Char), (x = 'x' ∨ x = 'X') ∧ (e = 'd' ∨ e = 'D') ∧
      l = '_' :: x :: '0' :: '0' :: '0' :: e :: '_' :: rest := by
  rcases l with _ | ⟨a, _ | ⟨x, _ | ⟨b, _ | ⟨c, _ | ⟨d, _ | ⟨e, _ | ⟨f, rest⟩⟩⟩⟩⟩⟩⟩ <;>
    simp only [isMarker7] at h
  all_goals first
  | exact absurd h (by decide)
  | skip
  rw [decide_eq_true_eq] at h
  obtain ⟨ha, hx, hb, hc, hd, he, hf⟩ := h
  subst ha hb hc hd hf
  exact ⟨x, e, rest, hx, he, rfl⟩

theorem nl_mem_replXF : ∀ (fuel : Nat) (l : List Char), l.length ≤ fuel →
    hasMarker l = true → '\n' ∈ replXF fuel l := by
  intro fuel
  induction fuel with
  | zero =>
    intro l hl hm
    cases l with
    | nil => simp [hasMarker] at hm
    | cons c rest => simp at hl
  | succ fuel ih =>
    intro l hl hm
    cases l with
    | nil => simp [hasMarker] at hm
    | cons c rest =>
      rw [replXF]
      by_cases hmk : isMarker7 (c :: rest) = true
      · rw [if_pos hmk]
        exact List.mem_cons_self _ _
      · rw [if_neg hmk]
        rw [hasMarker] at hm
        simp only [hmk, Bool.false_or] at hm
        have hlen : rest.length ≤ fuel := by
          simp only [List.length_cons] at hl
          omega
        exact List.mem_cons_of_mem c (ih rest hlen hm)

theorem cr_mem_replXF : ∀ (fuel : Nat) (l : List Char), l.length ≤ fuel →
    '\r' ∈ l → '\r' ∈ replXF fuel l := by
  intro fuel
  induction fuel with
  | zero =>
    intro l hl hm
    cases l with
    | nil => simp at hm
    | cons c rest => simp at hl
  | succ fuel ih =>
    intro l hl hm
    cases l with
    | nil => simp at hm
    | cons c rest =>
      rw [replXF]
      by_cases hmk : isMarker7 (c :: rest) = true
      · rw [if_pos hmk]
        obtain ⟨x, e, rest7, hx, he, hshape⟩ := isMarker7_shape _ hmk
        have hc : c = '_' := by
          have := congrArg (fun t => t.headI) hshape
          simpa using this
        have hrest : rest = x :: '0' :: '0' :: '0' :: e :: '_' :: rest7 := by
          have := congrArg (fun t => t.tail) hshape
          simpa using this
        have hdrop : rest.drop 6 = rest7 := by rw [hrest]; rfl
        have hmem7 : '\r' ∈ rest7 := by
          subst hc
          rw [hrest] at hm
          simp only [List.mem_cons] at hm
          rcases hm with h | h | h | h | h | h | h | h
          · exact absurd h (by decide)
          · exfalso
            rcases hx with hx | hx <;> rw [hx] at h <;> exact absurd h (by decide)
          · exact absurd h (by decide)
          · exact absurd h (by decide)
          · exact absurd h (by decide)
          · exfalso
            rcases he with he | he <;> rw [he] at h <;> exact absurd h (by decide)
          · exact absurd h (by decide)
          · exact h
        have hlen : (rest.drop 6).length ≤ fuel := by
          rw [List.length_drop]
          simp only [List.length_cons] at hl
          omega
        exact List.mem_cons_of_mem '\n' (by rw [hdrop]; exact ih rest7 (hdrop ▸ hlen) hmem7)
      · rw [if_neg hmk]
        rw [List.mem_cons] at hm
        rcases hm with hm | hm
        · exact hm ▸ List.mem_cons_self _ _
        · have hlen : rest.length ≤ fuel := by
            simp only [List.length_cons] at hl
            omega
          exact List.mem_cons_of_mem c (ih rest hlen hm)

theorem nl_mem_replCRLF : ∀ l : List Char, '\n' ∈ l → '\n' ∈ replCRLF l := by
  intro l
  induction l using replCRLF.induct with
  | case1 =>
    intro h
    simp at h
  | case2 c =>
    intro h
    exact h
  | case3 c d rest hcd ih =>
    intro _
    rw [replCRLF, if_pos hcd]
    exact List.mem_cons_self _ _
  | case4 c d rest hcd ih =>
    intro h
    rw [replCRLF, if_neg hcd]
    rw [List.mem_cons] at h
    rcases h with h | h
    · exact h ▸ List.mem_cons_self _ _
    · exact List.mem_cons_of_mem c (ih h)

theorem cr_or_nl_replCRLF : ∀ l : List Char, '\r' ∈ l →
    '\r' ∈ replCRLF l ∨ '\n' ∈ replCRLF l := by
  intro l
  induction l using replCRLF.induct with
  | case1 =>
    intro h
    simp at h
  | case2 c =>
    intro h
    exact Or.inl h
  | case3 c d rest hcd ih =>
    intro _
    rw [replCRLF, if_pos hcd]
    exact Or.inr (List.mem_cons_self _ _)
  | case4 c d rest hcd ih =>
    intro h
    rw [replCRLF, if_neg hcd]
    rw [List.mem_cons] at h
    rcases h with h | h
    · exact Or.inl (h ▸ List.mem_cons_self _ _)
    · rcases ih h with h2 | h2
      · exact Or.inl (List.mem_cons_of_mem c h2)
      · exact Or.inr (List.mem_cons_of_mem c h2)

theorem nl_mem_replCR_of_nl (l : List Char) (h : '\n' ∈ l) : '\n' ∈ replCR l :=
  List.mem_map.mpr ⟨'\n', h, by decide⟩

theorem nl_mem_replCR_of_cr (l : List Char) (h : '\r' ∈ l) : '\n' ∈ replCR l :=
  List.mem_map.mpr ⟨'\r', h, by decide⟩

theorem no_cr_replCR (l : List Char) : '\r' ∉ replCR l := by
  intro h
  obtain ⟨c, _, hc⟩ := List.mem_map.mp h
  by_cases hcr : c = '\r'
  · rw [if_pos hcr] at hc
    exact absurd hc (by decide)
  · rw [if_neg hcr] at hc
    exact hcr hc

theorem nl_in_normalized (s : String)
    (h : '\r' ∈ s.data ∨ hasMarker s.data = true) :
    '\n' ∈ (normalizeNewlines s).data := by
  have hstep : '\r' ∈ replX s.data ∨ '\n' ∈ replX s.data := by
    rcases h with h | h
    · exact Or.inl (cr_mem_replXF s.data.length s.data (le_refl _) h)
    · exact Or.inr (nl_mem_replXF s.data.length s.data (le_refl _) h)
  have : '\n' ∈ replCR (replCRLF (replX s.data)) := by
    rcases hstep with h1 | h1
    · rcases cr_or_nl_replCRLF _ h1 with h2 | h2
      · exact nl_mem_replCR_of_cr _ h2
      · exact nl_mem_replCR_of_nl _ h2
    · exact nl_mem_replCR_of_nl _ (nl_mem_replCRLF _ h1)
  exact this

/-- C8: `formatValue` maps null and the empty string to the em-dash; a
nonempty string containing a carriage return (hence also CRLF) or the
spreadsheet marker `_x000D_` becomes the multi-line rendering of its
normalized form, and normalization leaves no carriage return behind;
numbers go to their string form; booleans to the two distinct localized
tokens `Oui`/`Non`; other values to their JSON-stringified form. -/
theorem C8_format_value :
    formatValue Value.vNull = Formatted.plain "—" ∧
    formatValue (Value.vStr "") = Formatted.plain "—" ∧
    (∀ s : String, s ≠ "" → ('\r' ∈ s.data ∨ hasMarker s.data = true) →
      formatValue (Value.vStr s) = Formatted.multiline (normalizeNewlines s)) ∧
    (∀ s : String, '\r' ∉ (normalizeNewlines s).data) ∧
    (∀ n : Int, formatValue (Value.vNum n) = Formatted.plain (toString n)) ∧
    formatValue (Value.vBool true) = Formatted.plain "Oui" ∧
    formatValue (Value.vBool false) = Formatted.plain "Non" ∧
    ("Oui" : String) ≠ "Non" ∧
    (∀ str json : String, formatValue (Value.vObj str json) = Formatted.plain json) := by
  refine ⟨rfl, rfl, ?_, fun s => no_cr_replCR _, fun n => rfl, rfl, rfl, by decide,
    fun str json => rfl⟩
  intro s hs hvar
  have hc : (normalizeNewlines s).data.contains '\n' = true := by
    simpa using nl_in_normalized s hvar
  simp only [formatValue, if_neg hs]
  rw [if_pos hc]

/-- C8 witness -/
theorem C8_format_value_witness :
    formatValue (Value.vStr "a_x000D_b") = Formatted.multiline (normalizeNewlines "a_x000D_b") :=
  C8_format_value.2.2.1 "a_x000D_b" (by decide) (Or.inr (by decide))

/-! ## C9: bar-chart percentage label -/

/-- C9: the label formatter yields `"<v> • <pct>%"` with the percentage
`(v/t)*100` rendered to one decimal place whenever the total is a positive
number, and just `"<v>"` when the total is missing or not positive
(an `Int` total is always finite). -/
theorem C9_label_formatter (v t : Int) :
    labelFormatter (some v) (some t) =
      (if 0 < t then toString v ++ " • " ++ toFixed1 (v * 100) t ++ "%" else toString v) ∧
    labelFormatter (some v) none = toString v ∧
    labelFormatter (some 49) (some 745) = "49 • 6.6%" ∧
    labelFormatter (some 1) (some 3) = "1 • 33.3%" ∧
    labelFormatter (some 1) (some 8) = "1 • 12.5%" ∧
    labelFormatter (some 49) (some 0) = "49" := by
  refine ⟨?_, rfl, by decide, by decide, by decide, by decide⟩
  simp only [labelFormatter, Option.getD]
  by_cases ht : t ≤ 0
  · rw [if_pos ht, if_neg (by omega)]
  · rw [if_neg ht, if_pos (by omega)]

/-! ## C10: the engine never mutates its input array -/

theorem heap_length_alloc (h : Heap) (v : List Row) :
    (h.allocHeap v).arrays.length = h.arrays.length + 1 := by
  simp [Heap.allocHeap]

theorem heap_get_alloc_lt (h : Heap) (v : List Row) (r : Nat) (hr : r < h.arrays.length) :
    (h.allocHeap v).get r = h.get r :=
  List.getD_append _ _ _ _ hr

theorem heap_get_alloc_self (h : Heap) (v : List Row) :
    (h.allocHeap v).get h.allocRef = v := by
  rw [Heap.get, Heap.allocHeap, Heap.allocRef]
  rw [List.getD_append_right _ _ _ _ (le_refl _)]
  simp

theorem heap_get_write_ne (h : Heap) (j r : Nat) (v : List Row) (hne : j ≠ r) :
    (h.write j v).get r = h.get r := by
  rw [Heap.get, Heap.write, Heap.get]
  simp [List.getD_eq_getElem?_getD, List.getElem?_set_ne hne]

theorem heap_get_write_self (h : Heap) (j : Nat) (v : List Row) (hj : j < h.arrays.length) :
    (h.write j v).get j = v := by
  rw [Heap.get, Heap.write]
  simp [List.getD_eq_getElem?_getD, List.getElem?_set_self, hj]

theorem heap_get_lt (h : Heap) (r : Nat) (hne : h.get r ≠ []) : r < h.arrays.length := by
  by_contra hge
  exact hne (List.getD_eq_default _ _ (by omega))

/-- The array `working` finally points to holds the filtered-and-sorted
rows, and the heap reached by `processedDataHeap` still holds the caller's
rows at `dataRef`. -/
theorem processedDataHeap_heap_and_working (h : Heap) (r : Nat) (search : String)
    (sortKey : Option String) (dir : Direction) (hz : (h.get r).length ≠ 0) :
    ∃ (h3 : Heap) (w2 : Nat),
      (∀ (p : Int) (P : Nat), processedDataHeap h r search sortKey dir p P =
        (h3, { pageItems := ((h3.get w2).drop
                 (((min (max 1 p) ((max 1 (((h3.get w2).length + P - 1) / P) : Nat) : Int))
                     - 1).toNat * P)).take P,
               totalFiltered := (h3.get w2).length,
               totalPages := max 1 (((h3.get w2).length + P - 1) / P) })) ∧
      h3.get r = h.get r ∧
      h3.get w2 = viewRows (h.get r) search sortKey dir := by
  have hr : r < h.arrays.length := heap_get_lt h r (fun hc => hz (by rw [hc]; rfl))
  have hr1 : r < (h.allocHeap (h.get r)).arrays.length := by
    rw [heap_length_alloc]
    omega
  cases sortKey with
  | none =>
    by_cases hneed : 0 < (toLowerStr (trimStr search)).data.length
    · refine ⟨(h.allocHeap (h.get r)).allocHeap
          (((h.allocHeap (h.get r)).get h.allocRef).filter
            (rowMatches (toLowerStr (trimStr search)))),
          (h.allocHeap (h.get r)).allocRef, ?_, ?_, ?_⟩
      · intro p P
        simp only [processedDataHeap, if_neg hz, if_pos hneed]
      · rw [heap_get_alloc_lt _ _ _ hr1, heap_get_alloc_lt _ _ _ hr]
      · rw [heap_get_alloc_self (h.allocHeap (h.get r)), heap_get_alloc_self h]
        rw [viewRows, filterRows]
        rw [if_pos hneed]
    · refine ⟨h.allocHeap (h.get r), h.allocRef, ?_, ?_, ?_⟩
      · intro p P
        simp only [processedDataHeap, if_neg hz, if_neg hneed]
      · rw [heap_get_alloc_lt _ _ _ hr]
      · rw [heap_get_alloc_self h]
        rw [viewRows, filterRows]
        rw [if_neg hneed]
  | some k =>
    by_cases hneed : 0 < (toLowerStr (trimStr search)).data.length
    · refine ⟨((h.allocHeap (h.get r)).allocHeap
          (((h.allocHeap (h.get r)).get h.allocRef).filter
            (rowMatches (toLowerStr (trimStr search))))).write
            ((h.allocHeap (h.get r)).allocRef)
            (isortLe (rowLe k dir)
              (((h.allocHeap (h.get r)).allocHeap
                (((h.allocHeap (h.get r)).get h.allocRef).filter
                  (rowMatches (toLowerStr (trimStr search))))).get
                ((h.allocHeap (h.get r)).allocRef))),
          (h.allocHeap (h.get r)).allocRef, ?_, ?_, ?_⟩
      · intro p P
        simp only [processedDataHeap, if_neg hz, if_pos hneed]
      · rw [heap_get_write_ne _ _ _ _
            (by simp only [Heap.allocRef, heap_length_alloc]; omega),
          heap_get_alloc_lt _ _ _ hr1, heap_get_alloc_lt _ _ _ hr]
      · rw [heap_get_write_self _ _ _
            (by simp only [Heap.allocRef, heap_length_alloc]; omega)]
        rw [heap_get_alloc_self (h.allocHeap (h.get r)), heap_get_alloc_self h]
        rw [viewRows, sortRows, filterRows]
        rw [if_pos hneed]
    · refine ⟨(h.allocHeap (h.get r)).write h.allocRef
          (isortLe (rowLe k dir) ((h.allocHeap (h.get r)).get h.allocRef)),
          h.allocRef, ?_, ?_, ?_⟩
      · intro p P
        simp only [processedDataHeap, if_neg hz, if_neg hneed]
      · rw [heap_get_write_ne _ _ _ _ (by simp only [Heap.allocRef]; omega),
          heap_get_alloc_lt _ _ _ hr]
      · rw [heap_get_write_self _ _ _
            (by simp only [Heap.allocRef, heap_length_alloc]; omega)]
        rw [heap_get_alloc_self h]
        rw [viewRows, sortRows, filterRows]
        rw [if_neg hneed]

/-- C10: running `processedData` against the heap leaves the caller's rows
array exactly as it was (the engine sorts only its spread copy), and the
view it returns is the pure `computeView` of those rows. -/
theorem C10_no_input_mutation (h : Heap) (r : Nat) (search : String)
    (sortKey : Option String) (dir : Direction) (p : Int) (P : Nat) :
    (processedDataHeap h r search sortKey dir p P).1.get r = h.get r ∧
    (processedDataHeap h r search sortKey dir p P).2 =
      computeView (some (h.get r)) search sortKey dir p P := by
  by_cases hz : (h.get r).length = 0
  · constructor
    · simp [processedDataHeap, hz]
    · have : h.get r = [] := List.length_eq_zero.mp hz
      rw [this]
      simp [processedDataHeap, Heap.get] at *
      simp [this]
      rfl
  · obtain ⟨h3, w2, heq, hpres, hwork⟩ :=
      processedDataHeap_heap_and_working h r search sortKey dir hz
    rw [heq p P]
    refine ⟨hpres, ?_⟩
    rw [computeView_some _ hz, hwork]

end PeGaSus
